import Mathlib

/-!
Verification of the `go-tools` utility library: a shallow embedding of the
slice utilities (`Unique`, `Minus`, `Merge`, `SortNatural` with its
`naturalLess` / `getChunk` helpers, `ToMap` / `ToMapWithValue`) from
`slice.go` and of the atomic file writer `SaveFileFunc` from `file.go`,
together with theorems settling the specification's claims about them.

Modelling conventions:
- A Go slice that may be `nil` is modelled as `Option (List T)`: `none` is
  the `nil` slice, `some l` a non-nil slice (possibly empty).  Functions
  whose behaviour never distinguishes nil from empty are modelled directly
  on `List T` (ranging over a `nil` slice iterates zero times).
- A Go `map[K]V` is modelled as `K → Option V`; an indexing read
  `m[k]` of a `map[K]bool` (which yields `false` for absent keys) is
  `(m k).getD false`.
- Go strings are modelled as `List Char` (one entry per rune);
  `unicode.IsDigit` is modelled by `Char.isDigit` (the ASCII digits, the
  only ones the claims exercise).
-/

namespace Tools

/-- Model of Go `map[K]V`. -/
def GoMap (K V : Type) : Type := K → Option V

/-- The empty map (`map[K]V{}`). -/
def GoMap.empty {K V : Type} : GoMap K V := fun _ => none

/-- Map assignment `m[k] = v`. -/
def GoMap.insert {K V : Type} [DecidableEq K] (m : GoMap K V) (k : K) (v : V) :
    GoMap K V :=
  fun x => if x = k then some v else m x

/-- The comma-ok form `_, ok := m[k]`. -/
def GoMap.contains {K V : Type} (m : GoMap K V) (k : K) : Bool :=
  (m k).isSome

/-- The loop body shared by `Unique` (and, over the concatenation of its
argument slices, by `Merge`) in `slice.go`: walk the values, skipping any
`v` with `seen[v]` already set, otherwise recording it in `seen` and
appending it to the result. -/
def uniqueGo {T : Type} [DecidableEq T] (seen : GoMap T Bool) : List T → List T
  | [] => []
  | v :: vs =>
    if (seen v).getD false then uniqueGo seen vs
    else v :: uniqueGo (seen.insert v true) vs

/-- `Unique` from `slice.go`: `nil` input yields `nil`; otherwise duplicates
are removed, keeping the first occurrence of each value. -/
def Unique {T : Type} [DecidableEq T] (values : Option (List T)) :
    Option (List T) :=
  match values with
  | none => none
  | some l => some (uniqueGo GoMap.empty l)

/-- `ToMap` from `slice.go`.  The Go code skips keys equal to the zero value
of `K` (`if key != zero`); the zero value is passed explicitly as `zero`. -/
def ToMap {K V : Type} [DecidableEq K] (zero : K) (keys : List K)
    (gen : K → K × V) : GoMap K V :=
  keys.foldl
    (fun m key =>
      let p := gen key
      if p.1 ≠ zero then m.insert p.1 p.2 else m)
    GoMap.empty

/-- `ToMapWithValue` from `slice.go`. -/
def ToMapWithValue {K V : Type} [DecidableEq K] (zero : K) (keys : List K)
    (v : V) : GoMap K V :=
  ToMap zero keys fun k => (k, v)

/-- `Minus` from `slice.go`: keep the elements of `s1` that are not keys of
the membership map built from `s2` by `ToMapWithValue`. -/
def Minus {T : Type} [DecidableEq T] (zero : T) (s1 s2 : List T) : List T :=
  let m := ToMapWithValue zero s2 true
  s1.filter fun v => !(m.contains v)

/-- `Merge` from `slice.go`: one `seen` map threaded through the two nested
loops, which visit exactly the elements of the concatenation of the
argument slices in order. -/
def Merge {T : Type} [DecidableEq T] (slices : List (List T)) : List T :=
  uniqueGo GoMap.empty slices.flatten

/-- Top-level `Minus` on possibly-nil slices: ranging over a `nil` slice
iterates zero times, and the result always starts from the non-nil
`[]T{}`. -/
def MinusG {T : Type} [DecidableEq T] (zero : T) (s1 s2 : Option (List T)) :
    Option (List T) :=
  some (Minus zero (s1.getD []) (s2.getD []))

/-- Top-level `Merge` on possibly-nil slices: the result always starts from
the non-nil `[]T{}`. -/
def MergeG {T : Type} [DecidableEq T] (slices : List (Option (List T))) :
    Option (List T) :=
  some (Merge (slices.map fun s => s.getD []))

/-- `strings.TrimSpace`: drop leading and trailing whitespace runes
(`Char.isWhitespace` models `unicode.IsSpace`). -/
def trimSpace (s : List Char) : List Char :=
  ((s.dropWhile Char.isWhitespace).reverse.dropWhile Char.isWhitespace).reverse

/-- `getChunk` from `slice.go`.  The scanning loop accumulates digits until
the first non-digit once a digit was seen, and non-digits until the first
digit once a non-digit was seen; the first rune decides which, so the raw
segment is a `takeWhile` and the remainder the matching `dropWhile`.  A
numeric chunk is returned with leading zeroes stripped (`"0"` if that
leaves nothing); a text chunk is returned trimmed of whitespace.  Result:
`(chunk, isNumeric, remainder)`. -/
def getChunk (s : List Char) : List Char × Bool × List Char :=
  match s with
  | [] => ([], false, [])
  | c :: _ =>
    if c.isDigit then
      let digits := s.takeWhile Char.isDigit
      let rest := s.dropWhile Char.isDigit
      let chunk := digits.dropWhile fun d => d = '0'
      (if chunk = [] then ['0'] else chunk, true, rest)
    else
      let text := s.takeWhile fun d => !d.isDigit
      let rest := s.dropWhile fun d => !d.isDigit
      (trimSpace text, false, rest)

/-- Go's built-in `<` on strings: lexicographic comparison. -/
def lexLt : List Char → List Char → Bool
  | _, [] => false
  | [], _ :: _ => true
  | a :: as, b :: bs => if a = b then lexLt as bs else decide (a < b)

/-- `naturalLess` from `slice.go`, with an explicit fuel so that the
function computes by reduction; every loop iteration consumes at least one
rune of `s1`, so `s1.length + 1` fuel (supplied by `naturalLess`) is always
enough. -/
def naturalLessAux : Nat → List Char → List Char → Bool
  | 0, _, _ => true
  | fuel + 1, s1, s2 =>
    if (getChunk s1).1 = [] then true
    else if (getChunk s2).1 = [] then false
    else if (getChunk s1).1 ≠ (getChunk s2).1 then
      if (getChunk s1).2.1 && (getChunk s2).2.1 then
        if (getChunk s1).1.length ≠ (getChunk s2).1.length then
          decide ((getChunk s1).1.length < (getChunk s2).1.length)
        else lexLt (getChunk s1).1 (getChunk s2).1
      else lexLt (getChunk s1).1 (getChunk s2).1
    else naturalLessAux fuel (getChunk s1).2.2 (getChunk s2).2.2

/-- `naturalLess` from `slice.go`. -/
def naturalLess (s1 s2 : List Char) : Bool :=
  naturalLessAux (s1.length + 1) s1 s2

/-- Insertion of one element in front of the first entry not below it;
building block of the comparison sort modelling `sort.Slice`. -/
def sortInsert {α : Type} (less : α → α → Bool) (x : α) : List α → List α
  | [] => [x]
  | y :: ys => if less y x then y :: sortInsert less x ys else x :: y :: ys

/-- A comparison sort by the given `less`, modelling `sort.Slice` (which
sorts by an arbitrary comparison function; the algorithm is unspecified). -/
def sortBy {α : Type} (less : α → α → Bool) : List α → List α
  | [] => []
  | x :: xs => sortInsert less x (sortBy less xs)

/-- `SortNatural` from `slice.go`: sort a copy by `naturalLess`, lowering
case first when `ignoreCase` is set. -/
def SortNatural (values : List (List Char)) (ignoreCase : Bool) :
    List (List Char) :=
  sortBy
    (fun a b =>
      if ignoreCase then
        naturalLess (a.map Char.toLower) (b.map Char.toLower)
      else naturalLess a b)
    values

/-- The chunks `getChunk` yields when iterated to exhaustion (fuelled; each
step consumes at least one rune, so `s.length` fuel is always enough). -/
def chunkListAux : Nat → List Char → List (List Char)
  | 0, _ => []
  | fuel + 1, s =>
    if s = [] then []
    else (getChunk s).1 :: chunkListAux fuel (getChunk s).2.2

/-- The chunks successively extracted from `s` by `getChunk`. -/
def chunkList (s : List Char) : List (List Char) :=
  chunkListAux s.length s

/-- The raw segments consumed by the successive `getChunk` steps: at each
step, the prefix of the current string that precedes the returned
remainder (fuelled like `chunkListAux`). -/
def chunkSplitsAux : Nat → List Char → List (List Char)
  | 0, _ => []
  | fuel + 1, s =>
    if s = [] then []
    else
      s.take (s.length - (getChunk s).2.2.length) ::
        chunkSplitsAux fuel (getChunk s).2.2

/-- The raw segments consumed by iterating `getChunk` on `s`. -/
def chunkSplits (s : List Char) : List (List Char) :=
  chunkSplitsAux s.length s

/-- The numeric value of a digit string (the claims' "numeric value"). -/
def digitsVal : List Char → Nat
  | [] => 0
  | d :: ds => (d.toNat - 48) * 10 ^ ds.length + digitsVal ds

/-- Well-formedness of the numeric chunks `getChunk` produces. -/
def DigitsWfP (c : List Char) : Prop :=
  (∀ ch ∈ c, ch.isDigit = true) ∧ c ≠ [] ∧ (c.head? = some '0' → c = ['0'])

/-- A path component: an ordinary name, or a temporary-file name generated
by `os.CreateTemp` from the `"." ++ base` pattern and a uniqueness index
(modelling the platform's unique-name scheme, which avoids collisions with
existing entries). -/
inductive Comp : Type
  | name (s : String)
  | tmp (base : String) (k : Nat)
deriving DecidableEq

/-- A filesystem path, as the list of its components; `[]` is the root of
the relevant tree (it always exists as a directory).  `filepath.Dir` is
`List.dropLast`, `filepath.Base` the last component. -/
abbrev FPath : Type := List Comp

/-- Errors of the modelled OS calls: `notExist` (`os.IsNotExist` holds),
`exist` (already exists), or any other failure. -/
inductive OsErr : Type
  | notExist
  | exist
  | other (n : Nat)
deriving DecidableEq

/-- Filesystem state: the existing directories (with their permission
bits) and the regular files (with their content bytes). -/
structure FS : Type where
  dirs : List (FPath × Nat)
  files : List (FPath × List Nat)
deriving DecidableEq

/-- First-match association lookup (the model of reading a directory
entry by name). -/
def lookupP {K : Type} [DecidableEq K] {B : Type} : List (K × B) → K → Option B
  | [], _ => none
  | q :: qs, k => if q.1 = k then some q.2 else lookupP qs k

/-- Whether `p` exists as a directory (`[]` is the always-present root). -/
def dirExists (fs : FS) (p : FPath) : Bool :=
  p = [] || (lookupP fs.dirs p).isSome

/-- Whether `p` exists at all (directory or file). -/
def pathExists (fs : FS) (p : FPath) : Bool :=
  dirExists fs p || (lookupP fs.files p).isSome

/-- The uniqueness index of a path whose base is a temporary name. -/
def pathTmpIdx (p : FPath) : Nat :=
  match p.getLast? with
  | some (Comp.tmp _ k) => k
  | _ => 0

/-- An upper bound on the temp-name indices present among the files. -/
def maxTmpIdx (fs : FS) : Nat :=
  fs.files.foldl (fun m q => max m (pathTmpIdx q.1)) 0

/-- The fresh temporary path `os.CreateTemp` picks in `dir`: a temp name
with an index exceeding every index in use. -/
def freshTmp (fs : FS) (dir : FPath) (base : String) : FPath :=
  dir ++ [Comp.tmp base (maxTmpIdx fs + 1)]

/-- The string of the base component, for the `"." ++ filepath.Base(file)`
pattern of the temp name. -/
def baseStr (p : FPath) : String :=
  match p.getLast? with
  | some (Comp.name s) => s
  | some (Comp.tmp s _) => s
  | none => ""

/-- `os.CreateTemp(dir, pattern)`: fails with a not-exist error when `dir`
is missing, otherwise creates a fresh empty file in `dir` and returns it. -/
def createTemp (fs : FS) (dir : FPath) (base : String) :
    Except OsErr (FS × FPath) :=
  if dirExists fs dir then
    let t := freshTmp fs dir base
    Except.ok ({ fs with files := fs.files ++ [(t, [])] }, t)
  else Except.error OsErr.notExist

/-- `os.Mkdir(dir, perm)`: already-exists error when `dir` exists in any
form, not-exist error when its parent is missing, otherwise records the
directory with the given permission bits. -/
def mkdir (fs : FS) (dir : FPath) (perm : Nat) : Except OsErr FS :=
  if pathExists fs dir then Except.error OsErr.exist
  else if dirExists fs dir.dropLast then
    Except.ok { fs with dirs := (dir, perm) :: fs.dirs }
  else Except.error OsErr.notExist

/-- Replace the content of the existing file `p`. -/
def setFile (fs : FS) (p : FPath) (content : List Nat) : FS :=
  { fs with files := fs.files.map fun q => if q.1 = p then (p, content) else q }

/-- `os.Remove(p)` on a file, with the result ignored (best effort). -/
def removeFile (fs : FS) (p : FPath) : FS :=
  { fs with files := fs.files.filter fun q => q.1 ≠ p }

/-- Create or overwrite the file `p` with the given content. -/
def putFile (fs : FS) (p : FPath) (content : List Nat) : FS :=
  if (lookupP fs.files p).isSome then setFile fs p content
  else { fs with files := fs.files ++ [(p, content)] }

/-- `os.Rename(src, dst)`: moves the file at `src` over `dst`. -/
def rename (fs : FS) (src dst : FPath) : Except OsErr FS :=
  match lookupP fs.files src with
  | none => Except.error OsErr.notExist
  | some c => Except.ok (putFile (removeFile fs src) dst c)

/-- The writer function's behaviour, abstracted: on success the bytes it
wrote into the sink; on failure its error together with whatever
incomplete bytes it wrote before failing. -/
abbrev WriterRes : Type := Except (OsErr × List Nat) (List Nat)

/-- The tail of `SaveFileFunc` once a temporary file `t` exists: run the
writer; on its failure close and remove the temp and return the failure;
otherwise close (modelled as always succeeding) and rename the temp over
`file`, removing the temp when the rename fails. -/
def saveFinish (fs : FS) (t file : FPath) (f : WriterRes) : Option OsErr × FS :=
  match f with
  | Except.error (e, written) => (some e, removeFile (setFile fs t written) t)
  | Except.ok data =>
    let fs1 := setFile fs t data
    match rename fs1 t file with
    | Except.error e => (some e, removeFile fs1 t)
    | Except.ok fs2 => (none, fs2)

/-- `SaveFileFunc` from `file.go` over the filesystem model: create a temp
file next to `file`; if that fails with anything but a not-exist error,
return it; on a not-exist error create the missing parent directory with
permissions `perm | ((perm & 0444) >> 2)` and retry the temp creation
once; then hand the temp file to the writer (`saveFinish`).  Returns the
error result (`none` = success) and the final filesystem. -/
def SaveFileFunc (fs : FS) (file : FPath) (f : WriterRes) (perm : Nat) :
    Option OsErr × FS :=
  let dir := file.dropLast
  let base := baseStr file
  match createTemp fs dir base with
  | Except.error e =>
    if e ≠ OsErr.notExist then (some e, fs)
    else
      let dperm := perm ||| ((perm &&& 0o444) >>> 2)
      match mkdir fs dir dperm with
      | Except.error e2 => (some e2, fs)
      | Except.ok fs1 =>
        match createTemp fs1 dir base with
        | Except.error e3 => (some e3, fs1)
        | Except.ok (fs2, t) => saveFinish fs2 t file f
  | Except.ok (fs1, t) => saveFinish fs1 t file f

/-- The error-propagation spine shared by both `SaveFileFunc` branches:
writer failure, then close failure, then the rename result. -/
def saveFlowRest (writerRes closeRes renameRes : Option OsErr) : Option OsErr :=
  match writerRes with
  | some e => some e
  | none =>
    match closeRes with
    | some e => some e
    | none => renameRes

/-- Control-flow model of `SaveFileFunc`'s error handling, with the
outcome of every OS call (`none` = success) supplied by the environment,
so that interference — such as the directory appearing concurrently
between the failed first temp creation and the `os.Mkdir` call — is
expressible.  The branching mirrors `file.go`: any first temp-creation
error that is not a not-exist error is returned; otherwise any `Mkdir`
error is returned as-is; otherwise any retry error is returned; then
writer, close and rename errors in that order. -/
def SaveFileFuncFlow (tmpRes mkdirRes tmpRetryRes writerRes closeRes renameRes :
    Option OsErr) : Option OsErr :=
  match tmpRes with
  | some e =>
    if e ≠ OsErr.notExist then some e
    else
      match mkdirRes with
      | some e2 => some e2
      | none =>
        match tmpRetryRes with
        | some e3 => some e3
        | none => saveFlowRest writerRes closeRes renameRes
  | none => saveFlowRest writerRes closeRes renameRes

/-! ### Helper lemmas about `getChunk` and `naturalLess` -/

theorem getChunk_nil : getChunk [] = ([], false, []) := rfl

theorem ne_nil_of_chunk_ne_nil {s : List Char} (h : (getChunk s).1 ≠ []) :
    s ≠ [] := by
  intro hs
  subst hs
  exact h rfl

theorem getChunk_rest_length {s : List Char} (h : s ≠ []) :
    (getChunk s).2.2.length < s.length := by
  match s, h with
  | c :: t, _ =>
    by_cases hd : c.isDigit
    · have : (getChunk (c :: t)).2.2 = t.dropWhile Char.isDigit := by
        simp [getChunk, hd, List.dropWhile_cons_of_pos]
      rw [this]
      have := (List.dropWhile_sublist (l := t) Char.isDigit).length_le
      simp only [List.length_cons]
      omega
    · have : (getChunk (c :: t)).2.2 = t.dropWhile fun d => !d.isDigit := by
        have hp : (!c.isDigit) = true := by simp [hd]
        simp [getChunk, hd, List.dropWhile_cons_of_pos hp]
      rw [this]
      have := (List.dropWhile_sublist (l := t) fun d => !d.isDigit).length_le
      simp only [List.length_cons]
      omega

theorem naturalLessAux_fuel {f1 f2 : Nat} (s1 s2 : List Char)
    (h1 : s1.length < f1) (h2 : s1.length < f2) :
    naturalLessAux f1 s1 s2 = naturalLessAux f2 s1 s2 := by
  induction f1 generalizing f2 s1 s2 with
  | zero => omega
  | succ f1 ih =>
    match f2, h2 with
    | f2 + 1, h2 =>
      simp only [naturalLessAux]
      by_cases hA : (getChunk s1).1 = []
      · simp [hA]
      · by_cases hB : (getChunk s2).1 = []
        · simp [hA, hB]
        · by_cases hC : (getChunk s1).1 = (getChunk s2).1
          · have hlt := getChunk_rest_length (ne_nil_of_chunk_ne_nil hA)
            simp only [hA, hB, hC, if_false, ite_not, if_true, ne_eq,
              not_true_eq_false]
            exact ih _ _ (by omega) (by omega)
          · simp [hA, hB, hC]

theorem naturalLess_step (s1 s2 : List Char) :
    naturalLess s1 s2 =
      if (getChunk s1).1 = [] then true
      else if (getChunk s2).1 = [] then false
      else if (getChunk s1).1 ≠ (getChunk s2).1 then
        if (getChunk s1).2.1 && (getChunk s2).2.1 then
          if (getChunk s1).1.length ≠ (getChunk s2).1.length then
            decide ((getChunk s1).1.length < (getChunk s2).1.length)
          else lexLt (getChunk s1).1 (getChunk s2).1
        else lexLt (getChunk s1).1 (getChunk s2).1
      else naturalLess (getChunk s1).2.2 (getChunk s2).2.2 := by
  show naturalLessAux (s1.length + 1) s1 s2 = _
  simp only [naturalLessAux]
  by_cases hA : (getChunk s1).1 = []
  · simp [hA]
  · by_cases hB : (getChunk s2).1 = []
    · simp [hA, hB]
    · by_cases hC : (getChunk s1).1 = (getChunk s2).1
      · have hlt := getChunk_rest_length (ne_nil_of_chunk_ne_nil hA)
        simp only [hA, hB, hC, if_false, ite_not, if_true, ne_eq,
          not_true_eq_false]
        exact naturalLessAux_fuel _ _ (by omega) (by omega)
      · simp [hA, hB, hC]

theorem naturalLess_self_aux :
    ∀ (n : Nat) (s : List Char), s.length = n → naturalLess s s = true := by
  intro n
  induction n using Nat.strong_induction_on with
  | _ n ih =>
    intro s hn
    rw [naturalLess_step]
    by_cases hA : (getChunk s).1 = []
    · simp [hA]
    · have hlt := getChunk_rest_length (ne_nil_of_chunk_ne_nil hA)
      rw [if_neg hA, if_neg hA, if_neg (by simp)]
      exact ih _ (hn ▸ hlt) _ rfl

/-- Numeric chunks produced by `getChunk` are nonempty digit strings with
no leading zero (except the chunk `"0"` itself). -/
theorem getChunk_num_wf {s : List Char} (h : (getChunk s).2.1 = true) :
    (∀ ch ∈ (getChunk s).1, ch.isDigit = true) ∧ (getChunk s).1 ≠ [] ∧
      ((getChunk s).1.head? = some '0' → (getChunk s).1 = ['0']) := by
  match s with
  | [] => simp [getChunk] at h
  | c :: t =>
    by_cases hd : c.isDigit
    · have hchunk :
          (getChunk (c :: t)).1 =
            if ((c :: t).takeWhile Char.isDigit).dropWhile (fun d => d = '0') =
                [] then
              ['0']
            else ((c :: t).takeWhile Char.isDigit).dropWhile fun d => d = '0' := by
        simp [getChunk, hd]
      by_cases hz :
          ((c :: t).takeWhile Char.isDigit).dropWhile (fun d => d = '0') = []
      · rw [hchunk, if_pos hz]
        refine ⟨?_, by simp, fun _ => rfl⟩
        intro ch hch
        simp only [List.mem_singleton] at hch
        subst hch
        decide
      · rw [hchunk, if_neg hz]
        refine ⟨?_, hz, ?_⟩
        · intro ch hch
          exact List.mem_takeWhile_imp
            ((List.dropWhile_sublist (fun d => d = '0')).mem hch)
        · intro hhead
          have := List.head?_dropWhile_not (fun d => decide (d = '0'))
            ((c :: t).takeWhile Char.isDigit)
          rw [hhead] at this
          simp at this
    · exfalso
      simp [getChunk, hd] at h

/-! ### Digit strings: length-then-lexicographic order is numeric order -/

theorem charToNat_inj {a b : Char} (h : a.toNat = b.toNat) : a = b :=
  Char.ext (UInt32.ext h)

theorem isDigit_bounds {c : Char} (h : c.isDigit = true) :
    48 ≤ c.toNat ∧ c.toNat ≤ 57 := by
  simp only [Char.isDigit, Bool.and_eq_true, decide_eq_true_eq] at h
  exact h

theorem digitsVal_lt_pow {c : List Char} (h : ∀ ch ∈ c, ch.isDigit = true) :
    digitsVal c < 10 ^ c.length := by
  induction c with
  | nil => simp [digitsVal]
  | cons d ds ih =>
    have hd := isDigit_bounds (h d (by simp))
    have hds := ih fun ch hch => h ch (by simp [hch])
    have h9 : d.toNat - 48 ≤ 9 := by omega
    calc
      digitsVal (d :: ds) = (d.toNat - 48) * 10 ^ ds.length + digitsVal ds :=
        rfl
      _ ≤ 9 * 10 ^ ds.length + digitsVal ds :=
        Nat.add_le_add_right (Nat.mul_le_mul_right _ h9) _
      _ < 9 * 10 ^ ds.length + 10 ^ ds.length := Nat.add_lt_add_left hds _
      _ = 10 ^ (ds.length + 1) := by ring
      _ = 10 ^ (d :: ds).length := by simp

theorem pow_le_digitsVal {d : Char} {ds : List Char}
    (h : ∀ ch ∈ d :: ds, ch.isDigit = true) (hd0 : d ≠ '0') :
    10 ^ ds.length ≤ digitsVal (d :: ds) := by
  have hd := isDigit_bounds (h d (by simp))
  have hne : d.toNat ≠ 48 := fun hc => hd0 (charToNat_inj hc)
  have h1 : 1 ≤ d.toNat - 48 := by omega
  calc
    10 ^ ds.length = 1 * 10 ^ ds.length := by ring
    _ ≤ (d.toNat - 48) * 10 ^ ds.length := Nat.mul_le_mul_right _ h1
    _ ≤ (d.toNat - 48) * 10 ^ ds.length + digitsVal ds := Nat.le_add_right _ _
    _ = digitsVal (d :: ds) := rfl

theorem digitsVal_lt_of_length {c1 c2 : List Char} (wf1 : DigitsWfP c1)
    (wf2 : DigitsWfP c2) (h : c1.length < c2.length) :
    digitsVal c1 < digitsVal c2 := by
  obtain ⟨hd1, hne1, _⟩ := wf1
  obtain ⟨hd2, hne2, hz2⟩ := wf2
  match c2, hne2 with
  | d :: ds, _ =>
    have hlen1 : 1 ≤ c1.length := by
      cases c1 with
      | nil => exact absurd rfl hne1
      | cons a as => simp
    have hd0 : d ≠ '0' := by
      intro hc
      subst hc
      have h00 := hz2 rfl
      have hds : ds = [] := by simpa using h00
      subst hds
      simp only [List.length_cons, List.length_nil] at h
      omega
    calc
      digitsVal c1 < 10 ^ c1.length := digitsVal_lt_pow hd1
      _ ≤ 10 ^ ds.length := by
        apply Nat.pow_le_pow_right (by omega)
        simp only [List.length_cons] at h
        omega
      _ ≤ digitsVal (d :: ds) := pow_le_digitsVal hd2 hd0

theorem lexLt_eq_digitsVal :
    ∀ c1 c2 : List Char, (∀ ch ∈ c1, ch.isDigit = true) →
      (∀ ch ∈ c2, ch.isDigit = true) → c1.length = c2.length →
      lexLt c1 c2 = decide (digitsVal c1 < digitsVal c2) := by
  intro c1
  induction c1 with
  | nil =>
    intro c2 _ _ hlen
    have : c2 = [] := by
      cases c2 with
      | nil => rfl
      | cons b bs => simp at hlen
    subst this
    simp [lexLt, digitsVal]
  | cons a as ih =>
    intro c2 h1 h2 hlen
    match c2 with
    | [] => simp at hlen
    | b :: bs =>
      simp only [List.length_cons, Nat.add_right_cancel_iff] at hlen
      by_cases hab : a = b
      · subst hab
        have hstep : lexLt (a :: as) (a :: bs) = lexLt as bs := by
          simp [lexLt]
        rw [hstep]
        have hval :
            decide (digitsVal (a :: as) < digitsVal (a :: bs)) =
              decide (digitsVal as < digitsVal bs) := by
          simp only [digitsVal, hlen]
          rw [decide_eq_decide]
          omega
        rw [hval]
        exact ih bs (fun ch hch => h1 ch (by simp [hch]))
          (fun ch hch => h2 ch (by simp [hch])) hlen
      · have hstep : lexLt (a :: as) (b :: bs) = decide (a < b) := by
          simp [lexLt, hab]
        rw [hstep]
        have hba := isDigit_bounds (h1 a (by simp))
        have hbb := isDigit_bounds (h2 b (by simp))
        have htne : a.toNat ≠ b.toNat := fun hc => hab (charToNat_inj hc)
        have hlt1 := digitsVal_lt_pow
          (fun ch hch => h1 ch (List.mem_cons_of_mem a hch))
        have hlt2 := digitsVal_lt_pow
          (fun ch hch => h2 ch (List.mem_cons_of_mem b hch))
        rw [decide_eq_decide]
        constructor
        · intro hlt
          have hnat : a.toNat < b.toNat := hlt
          have hdv : a.toNat - 48 + 1 ≤ b.toNat - 48 := by omega
          calc
            digitsVal (a :: as) =
                (a.toNat - 48) * 10 ^ as.length + digitsVal as := rfl
            _ < (a.toNat - 48) * 10 ^ as.length + 10 ^ as.length :=
              Nat.add_lt_add_left hlt1 _
            _ = (a.toNat - 48 + 1) * 10 ^ as.length := by ring
            _ ≤ (b.toNat - 48) * 10 ^ as.length :=
              Nat.mul_le_mul_right _ hdv
            _ ≤ (b.toNat - 48) * 10 ^ bs.length + digitsVal bs := by
              rw [hlen]
              exact Nat.le_add_right _ _
            _ = digitsVal (b :: bs) := rfl
        · intro hlt
          by_contra hnlt
          have hnat : b.toNat < a.toNat := by
            have : ¬(a.toNat < b.toNat) := fun hc => hnlt hc
            omega
          have hdv : b.toNat - 48 + 1 ≤ a.toNat - 48 := by omega
          have : digitsVal (b :: bs) < digitsVal (a :: as) := by
            calc
              digitsVal (b :: bs) =
                  (b.toNat - 48) * 10 ^ bs.length + digitsVal bs := rfl
              _ < (b.toNat - 48) * 10 ^ bs.length + 10 ^ bs.length :=
                Nat.add_lt_add_left hlt2 _
              _ = (b.toNat - 48 + 1) * 10 ^ bs.length := by ring
              _ ≤ (a.toNat - 48) * 10 ^ bs.length :=
                Nat.mul_le_mul_right _ hdv
              _ ≤ (a.toNat - 48) * 10 ^ as.length + digitsVal as := by
                rw [hlen]
                exact Nat.le_add_right _ _
              _ = digitsVal (a :: as) := rfl
          omega

theorem num_cmp_eq_digitsVal {c1 c2 : List Char} (wf1 : DigitsWfP c1)
    (wf2 : DigitsWfP c2) :
    (if c1.length ≠ c2.length then decide (c1.length < c2.length)
     else lexLt c1 c2) =
      decide (digitsVal c1 < digitsVal c2) := by
  by_cases hlen : c1.length = c2.length
  · rw [if_neg (by simp [hlen])]
    exact lexLt_eq_digitsVal c1 c2 wf1.1 wf2.1 hlen
  · rw [if_pos hlen]
    rw [decide_eq_decide]
    constructor
    · intro h
      exact digitsVal_lt_of_length wf1 wf2 h
    · intro h
      by_contra hn
      have : c2.length < c1.length := by omega
      have := digitsVal_lt_of_length wf2 wf1 this
      omega

/-! ### Reconstruction of a string from its chunk decomposition -/

theorem take_sub_append {u v : List Char} :
    (u ++ v).take ((u ++ v).length - v.length) ++ v = u ++ v := by
  have h : (u ++ v).length - v.length = u.length := by simp [List.length_append]
  rw [h, List.take_left]

theorem getChunk_consumed_append {s : List Char} (h : s ≠ []) :
    s.take (s.length - (getChunk s).2.2.length) ++ (getChunk s).2.2 = s := by
  match s, h with
  | c :: t, _ =>
    by_cases hd : c.isDigit
    · have hrest : (getChunk (c :: t)).2.2 = (c :: t).dropWhile Char.isDigit := by
        simp [getChunk, hd]
      have hsplit := List.takeWhile_append_dropWhile (p := Char.isDigit)
        (l := c :: t)
      rw [hrest]
      calc
        (c :: t).take
              ((c :: t).length - ((c :: t).dropWhile Char.isDigit).length) ++
            (c :: t).dropWhile Char.isDigit =
            ((c :: t).takeWhile Char.isDigit ++
                  (c :: t).dropWhile Char.isDigit).take
                (((c :: t).takeWhile Char.isDigit ++
                      (c :: t).dropWhile Char.isDigit).length -
                  ((c :: t).dropWhile Char.isDigit).length) ++
              (c :: t).dropWhile Char.isDigit := by rw [hsplit]
        _ = (c :: t).takeWhile Char.isDigit ++ (c :: t).dropWhile Char.isDigit :=
          take_sub_append
        _ = c :: t := hsplit
    · have hrest :
          (getChunk (c :: t)).2.2 = (c :: t).dropWhile fun d => !d.isDigit := by
        simp [getChunk, hd]
      have hsplit := List.takeWhile_append_dropWhile
        (p := fun d : Char => !d.isDigit) (l := c :: t)
      rw [hrest]
      calc
        (c :: t).take
              ((c :: t).length -
                ((c :: t).dropWhile fun d => !d.isDigit).length) ++
            ((c :: t).dropWhile fun d => !d.isDigit) =
            (((c :: t).takeWhile fun d => !d.isDigit) ++
                  ((c :: t).dropWhile fun d => !d.isDigit)).take
                ((((c :: t).takeWhile fun d => !d.isDigit) ++
                      ((c :: t).dropWhile fun d => !d.isDigit)).length -
                  ((c :: t).dropWhile fun d => !d.isDigit).length) ++
              ((c :: t).dropWhile fun d => !d.isDigit) := by rw [hsplit]
        _ = ((c :: t).takeWhile fun d => !d.isDigit) ++
              ((c :: t).dropWhile fun d => !d.isDigit) := take_sub_append
        _ = c :: t := hsplit

theorem chunkSplitsAux_flatten :
    ∀ (fuel : Nat) (s : List Char), s.length ≤ fuel →
      (chunkSplitsAux fuel s).flatten = s := by
  intro fuel
  induction fuel with
  | zero =>
    intro s h
    have hs : s = [] := List.eq_nil_of_length_eq_zero (by omega)
    subst hs
    rfl
  | succ fuel ih =>
    intro s h
    by_cases hs : s = []
    · subst hs
      rfl
    · have hrest := getChunk_rest_length hs
      simp only [chunkSplitsAux, if_neg hs, List.flatten_cons]
      rw [ih _ (by omega)]
      exact getChunk_consumed_append hs

/-! ### Properties of `uniqueGo` (first-seen deduplication) -/

theorem goMap_insert_read {T : Type} [DecidableEq T] (seen : GoMap T Bool)
    (v x : T) (b : Bool) :
    ((seen.insert v b) x).getD false =
      if x = v then b else (seen x).getD false := by
  by_cases h : x = v <;> simp [GoMap.insert, h]

theorem uniqueGo_sublist {T : Type} [DecidableEq T] (seen : GoMap T Bool)
    (l : List T) : List.Sublist (uniqueGo seen l) l := by
  induction l generalizing seen with
  | nil => simp [uniqueGo]
  | cons v vs ih =>
    by_cases h : (seen v).getD false = true
    · simp only [uniqueGo, if_pos h]
      exact (ih seen).cons v
    · simp only [uniqueGo, if_neg h]
      exact (ih _).cons₂ v

theorem mem_uniqueGo {T : Type} [DecidableEq T] (seen : GoMap T Bool)
    (l : List T) (a : T) :
    a ∈ uniqueGo seen l ↔ a ∈ l ∧ (seen a).getD false = false := by
  induction l generalizing seen with
  | nil => simp [uniqueGo]
  | cons v vs ih =>
    by_cases h : (seen v).getD false = true
    · rw [show uniqueGo seen (v :: vs) = uniqueGo seen vs from
        by simp only [uniqueGo, if_pos h], ih]
      constructor
      · rintro ⟨ha, hs⟩
        exact ⟨List.mem_cons_of_mem v ha, hs⟩
      · rintro ⟨ha, hs⟩
        rcases List.mem_cons.mp ha with hav | hav
        · subst hav
          rw [h] at hs
          cases hs
        · exact ⟨hav, hs⟩
    · rw [show uniqueGo seen (v :: vs) =
          v :: uniqueGo (seen.insert v true) vs from
        by simp only [uniqueGo, if_neg h]]
      by_cases hav : a = v
      · subst hav
        have hf : (seen a).getD false = false := by
          cases hx : (seen a).getD false
          · rfl
          · exact absurd hx h
        simp [hf]
      · simp only [List.mem_cons, hav, false_or]
        rw [ih, goMap_insert_read, if_neg hav]

theorem pairwise_indexOf_uniqueGo {T : Type} [DecidableEq T]
    (seen : GoMap T Bool) (l : List T) :
    (uniqueGo seen l).Pairwise fun a b => l.indexOf a < l.indexOf b := by
  induction l generalizing seen with
  | nil => simp [uniqueGo]
  | cons v vs ih =>
    by_cases h : (seen v).getD false = true
    · rw [show uniqueGo seen (v :: vs) = uniqueGo seen vs from
        by simp only [uniqueGo, if_pos h]]
      refine (ih seen).imp_of_mem ?_
      intro a b ha hb hab
      have hav : a ≠ v := by
        intro hc
        subst hc
        have := ((mem_uniqueGo seen vs a).mp ha).2
        rw [h] at this
        cases this
      have hbv : b ≠ v := by
        intro hc
        subst hc
        have := ((mem_uniqueGo seen vs b).mp hb).2
        rw [h] at this
        cases this
      rw [List.indexOf_cons_ne vs (fun hc => hav hc.symm),
        List.indexOf_cons_ne vs (fun hc => hbv hc.symm)]
      omega
    · rw [show uniqueGo seen (v :: vs) =
          v :: uniqueGo (seen.insert v true) vs from
        by simp only [uniqueGo, if_neg h]]
      constructor
      · intro b hb
        have hbmem := (mem_uniqueGo _ vs b).mp hb
        have hbv : b ≠ v := by
          intro hc
          subst hc
          have := hbmem.2
          rw [goMap_insert_read, if_pos rfl] at this
          cases this
        rw [List.indexOf_cons_self, List.indexOf_cons_ne vs
          (fun hc => hbv hc.symm)]
        omega
      · refine (ih _).imp_of_mem ?_
        intro a b ha hb hab
        have hav : a ≠ v := by
          intro hc
          subst hc
          have := ((mem_uniqueGo _ vs a).mp ha).2
          rw [goMap_insert_read, if_pos rfl] at this
          cases this
        have hbv : b ≠ v := by
          intro hc
          subst hc
          have := ((mem_uniqueGo _ vs b).mp hb).2
          rw [goMap_insert_read, if_pos rfl] at this
          cases this
        rw [List.indexOf_cons_ne vs (fun hc => hav hc.symm),
          List.indexOf_cons_ne vs (fun hc => hbv hc.symm)]
        omega

theorem uniqueGo_nodup {T : Type} [DecidableEq T] (seen : GoMap T Bool)
    (l : List T) : (uniqueGo seen l).Nodup := by
  refine (pairwise_indexOf_uniqueGo seen l).imp ?_
  intro a b hab hc
  subst hc
  omega

theorem uniqueGo_eq_self {T : Type} [DecidableEq T] :
    ∀ (l : List T) (seen : GoMap T Bool), l.Nodup →
      (∀ a ∈ l, (seen a).getD false = false) → uniqueGo seen l = l := by
  intro l
  induction l with
  | nil => intro seen _ _; rfl
  | cons v vs ih =>
    intro seen hnd hseen
    have hv : (seen v).getD false = false := hseen v (by simp)
    have hv' : ¬((seen v).getD false = true) := by
      rw [hv]
      simp
    rw [show uniqueGo seen (v :: vs) =
        v :: uniqueGo (seen.insert v true) vs from
      by simp only [uniqueGo, if_neg hv']]
    congr 1
    refine ih _ (List.Nodup.of_cons hnd) ?_
    intro a ha
    rw [goMap_insert_read, if_neg ?_]
    · exact hseen a (List.mem_cons_of_mem v ha)
    · intro hc
      subst hc
      exact (List.nodup_cons.mp hnd).1 ha

/-! ### Helper lemmas about the filesystem model -/

theorem foldl_max_init_le {α : Type} (f : α → Nat) (l : List α) (init : Nat) :
    init ≤ l.foldl (fun m x => max m (f x)) init := by
  induction l generalizing init with
  | nil => simp
  | cons x xs ih =>
    exact le_trans (Nat.le_max_left _ _) (ih (max init (f x)))

theorem le_foldl_max {α : Type} (f : α → Nat) (l : List α) (a : α)
    (ha : a ∈ l) :
    ∀ init : Nat, f a ≤ l.foldl (fun m x => max m (f x)) init := by
  induction l with
  | nil => cases ha
  | cons x xs ih =>
    intro init
    rcases List.mem_cons.mp ha with h | h
    · subst h
      exact le_trans (Nat.le_max_right _ _) (foldl_max_init_le f xs _)
    · exact ih h _

theorem freshTmp_fresh (fs : FS) (dir : FPath) (base : String) :
    ∀ q ∈ fs.files, q.1 ≠ freshTmp fs dir base := by
  intro q hq hc
  have h1 : pathTmpIdx q.1 ≤ maxTmpIdx fs :=
    le_foldl_max (fun r => pathTmpIdx r.1) fs.files q hq 0
  have h2 : pathTmpIdx q.1 = maxTmpIdx fs + 1 := by
    rw [hc]
    simp [freshTmp, pathTmpIdx, List.getLast?_concat]
  omega

theorem lookupP_eq_none {K B : Type} [DecidableEq K] (l : List (K × B)) (k : K)
    (h : ∀ q ∈ l, q.1 ≠ k) : lookupP l k = none := by
  induction l with
  | nil => rfl
  | cons q qs ih =>
    rw [show lookupP (q :: qs) k = if q.1 = k then some q.2 else lookupP qs k
      from rfl]
    rw [if_neg (h q (by simp))]
    exact ih fun r hr => h r (by simp [hr])

theorem lookupP_append {K B : Type} [DecidableEq K] (l1 l2 : List (K × B))
    (k : K) :
    lookupP (l1 ++ l2) k =
      match lookupP l1 k with
      | some v => some v
      | none => lookupP l2 k := by
  induction l1 with
  | nil => rfl
  | cons q qs ih =>
    by_cases hq : q.1 = k
    · simp [lookupP, hq]
    · simp [lookupP, hq, ih]

theorem map_replace_fresh (files : List (FPath × List Nat)) (t : FPath)
    (c : List Nat) (h : ∀ q ∈ files, q.1 ≠ t) :
    files.map (fun q => if q.1 = t then (t, c) else q) = files := by
  induction files with
  | nil => rfl
  | cons q qs ih =>
    simp only [List.map_cons, if_neg (h q (by simp))]
    rw [ih fun r hr => h r (by simp [hr])]

theorem filter_fresh (files : List (FPath × List Nat)) (t : FPath)
    (h : ∀ q ∈ files, q.1 ≠ t) :
    files.filter (fun q => q.1 ≠ t) = files := by
  induction files with
  | nil => rfl
  | cons q qs ih =>
    rw [List.filter_cons]
    rw [if_pos (by simp [h q (by simp)])]
    rw [ih fun r hr => h r (by simp [hr])]

/-- After a writer failure, the cleanup puts the filesystem's files back to
what they were before the temp file was created. -/
theorem saveFinish_writer_error (dirs : List (FPath × Nat))
    (files : List (FPath × List Nat)) (t file : FPath) (e : OsErr)
    (written : List Nat) (hfresh : ∀ q ∈ files, q.1 ≠ t) :
    saveFinish ⟨dirs, files ++ [(t, [])]⟩ t file
        (Except.error (e, written)) =
      (some e, ⟨dirs, files⟩) := by
  simp only [saveFinish, setFile, removeFile]
  refine congrArg (Prod.mk (some e)) ?_
  refine congrArg (FS.mk dirs) ?_
  rw [List.map_append, map_replace_fresh files t written hfresh]
  simp only [List.map_cons, List.map_nil, if_pos rfl]
  rw [List.filter_append, filter_fresh files t hfresh]
  simp

theorem putFile_dirs (fs : FS) (p : FPath) (c : List Nat) :
    (putFile fs p c).dirs = fs.dirs := by
  unfold putFile
  split <;> rfl

theorem rename_ok_dirs {fs fs2 : FS} {src dst : FPath}
    (h : rename fs src dst = Except.ok fs2) : fs2.dirs = fs.dirs := by
  unfold rename at h
  cases hl : lookupP fs.files src with
  | none =>
    rw [hl] at h
    cases h
  | some c =>
    rw [hl] at h
    cases h
    rw [putFile_dirs]
    rfl

theorem saveFinish_dirs (fs : FS) (t file : FPath) (f : WriterRes) :
    (saveFinish fs t file f).2.dirs = fs.dirs := by
  rcases f with ⟨e, w⟩ | data
  · rfl
  · simp only [saveFinish]
    cases hr : rename (setFile fs t data) t file with
    | error e2 =>
      simp only [hr]
      rfl
    | ok fs2 =>
      simp only [hr]
      exact (rename_ok_dirs hr).trans rfl

theorem lookupP_setFile_self (files : List (FPath × List Nat)) (p : FPath)
    (c : List Nat) (h : (lookupP files p).isSome = true) :
    lookupP (files.map fun q => if q.1 = p then (p, c) else q) p = some c := by
  induction files with
  | nil => simp [lookupP] at h
  | cons q qs ih =>
    by_cases hq : q.1 = p
    · simp [lookupP, hq]
    · rw [show lookupP (q :: qs) p = lookupP qs p from by simp [lookupP, hq]]
        at h
      simp only [List.map_cons, if_neg hq]
      rw [show lookupP
            ((q :: qs.map fun r => if r.1 = p then (p, c) else r) : List _) p =
          lookupP (qs.map fun r => if r.1 = p then (p, c) else r) p from
        by simp [lookupP, hq]]
      exact ih h

theorem lookupP_putFile_self (fs : FS) (p : FPath) (c : List Nat) :
    lookupP (putFile fs p c).files p = some c := by
  unfold putFile
  by_cases h : (lookupP fs.files p).isSome = true
  · rw [if_pos h]
    exact lookupP_setFile_self fs.files p c h
  · rw [if_neg h]
    show lookupP (fs.files ++ [(p, c)]) p = some c
    rw [lookupP_append]
    cases hl : lookupP fs.files p with
    | none => simp [lookupP]
    | some v =>
      rw [hl] at h
      simp at h

/-- Writer failure with an existing parent directory: the state is fully
restored and the writer's error is returned. -/
theorem saveFileFunc_werr_of_dir (fs : FS) (file : FPath) (e : OsErr)
    (written : List Nat) (perm : Nat)
    (hdir : dirExists fs file.dropLast = true) :
    SaveFileFunc fs file (Except.error (e, written)) perm = (some e, fs) := by
  obtain ⟨dirs, files⟩ := fs
  have hfresh := freshTmp_fresh ⟨dirs, files⟩ file.dropLast (baseStr file)
  simp only [SaveFileFunc, createTemp, if_pos hdir]
  exact saveFinish_writer_error dirs files _ file e written hfresh

/-- Writer failure in general: some error is returned and the files are
exactly what they were (destination untouched, temp file removed). -/
theorem saveFileFunc_werr_general (fs : FS) (file : FPath) (e : OsErr)
    (written : List Nat) (perm : Nat) :
    ((SaveFileFunc fs file (Except.error (e, written)) perm).1).isSome =
        true ∧
      (SaveFileFunc fs file (Except.error (e, written)) perm).2.files =
        fs.files := by
  by_cases hdir : dirExists fs file.dropLast = true
  · rw [saveFileFunc_werr_of_dir fs file e written perm hdir]
    constructor <;> simp
  · have hdir' : dirExists fs file.dropLast = false := by
      cases hd : dirExists fs file.dropLast
      · rfl
      · exact absurd hd hdir
    simp only [SaveFileFunc, createTemp, if_neg hdir, ne_eq,
      not_true_eq_false, if_false, ite_false]
    by_cases hex : pathExists fs file.dropLast = true
    · simp only [mkdir, if_pos hex]
      constructor <;> simp
    · by_cases hpar : dirExists fs file.dropLast.dropLast = true
      · simp only [mkdir, if_neg hex, if_pos hpar]
        obtain ⟨dirs, files⟩ := fs
        have hd1 :
            dirExists
                ⟨(file.dropLast, perm ||| (perm &&& 0o444) >>> 2) :: dirs,
                  files⟩
                file.dropLast = true := by
          simp [dirExists, lookupP]
        simp only [createTemp, if_pos hd1]
        have hfresh :=
          freshTmp_fresh
            ⟨(file.dropLast, perm ||| (perm &&& 0o444) >>> 2) :: dirs, files⟩
            file.dropLast (baseStr file)
        rw [saveFinish_writer_error _ files _ file e written hfresh]
        constructor <;> simp
      · simp only [mkdir, if_neg hex, if_neg hpar]
        constructor <;> simp

/-- Success of `saveFinish` on a freshly created temp file: no error, and
the destination holds the written bytes. -/
theorem saveFinish_success (dirs : List (FPath × Nat))
    (files : List (FPath × List Nat)) (t file : FPath) (data : List Nat)
    (hfresh : ∀ q ∈ files, q.1 ≠ t) :
    (saveFinish ⟨dirs, files ++ [(t, [])]⟩ t file (Except.ok data)).1 =
        none ∧
      lookupP
          (saveFinish ⟨dirs, files ++ [(t, [])]⟩ t file
              (Except.ok data)).2.files
          file =
        some data := by
  have hset :
      setFile ⟨dirs, files ++ [(t, [])]⟩ t data =
        ⟨dirs, files ++ [(t, data)]⟩ := by
    simp only [setFile]
    refine congrArg (FS.mk dirs) ?_
    rw [List.map_append, map_replace_fresh files t data hfresh]
    simp
  have hlook : lookupP (files ++ [(t, data)]) t = some data := by
    rw [lookupP_append, lookupP_eq_none files t hfresh]
    simp [lookupP]
  have hrm : removeFile ⟨dirs, files ++ [(t, data)]⟩ t = ⟨dirs, files⟩ := by
    simp only [removeFile]
    refine congrArg (FS.mk dirs) ?_
    rw [List.filter_append, filter_fresh files t hfresh]
    simp
  simp only [saveFinish, hset]
  rw [show rename ⟨dirs, files ++ [(t, data)]⟩ t file =
      Except.ok (putFile ⟨dirs, files⟩ file data) from by
    simp only [rename, hlook, hrm]]
  exact ⟨rfl, lookupP_putFile_self ⟨dirs, files⟩ file data⟩

/-- The retry path of `SaveFileFunc`: when the parent directory is missing
but its own parent exists, exactly one directory level is created, with
permission bits `perm | ((perm & 0444) >> 2)`. -/
theorem saveFileFunc_mkdir_dirs (fs : FS) (file : FPath) (f : WriterRes)
    (perm : Nat) (hex : pathExists fs file.dropLast = false)
    (hpar : dirExists fs file.dropLast.dropLast = true) :
    (SaveFileFunc fs file f perm).2.dirs =
      (file.dropLast, perm ||| ((perm &&& 0o444) >>> 2)) :: fs.dirs := by
  have hexf : ¬(pathExists fs file.dropLast = true) := by
    rw [hex]
    simp
  have hdirf : dirExists fs file.dropLast = false := by
    simp only [pathExists, Bool.or_eq_false_iff] at hex
    exact hex.1
  have hdir : ¬(dirExists fs file.dropLast = true) := by
    rw [hdirf]
    simp
  obtain ⟨dirs, files⟩ := fs
  simp only [SaveFileFunc, createTemp, if_neg hdir, ne_eq, not_true_eq_false,
    if_false, ite_false]
  simp only [mkdir, if_neg hexf, if_pos hpar]
  have hd1 :
      dirExists
          ⟨(file.dropLast, perm ||| (perm &&& 0o444) >>> 2) :: dirs, files⟩
          file.dropLast = true := by
    simp [dirExists, lookupP]
  simp only [createTemp, if_pos hd1]
  rw [saveFinish_dirs]

/-- The retry path with a successful writer: no error is returned and the
destination file holds the written bytes. -/
theorem saveFileFunc_retry_success (fs : FS) (file : FPath) (perm : Nat)
    (data : List Nat) (hex : pathExists fs file.dropLast = false)
    (hpar : dirExists fs file.dropLast.dropLast = true) :
    (SaveFileFunc fs file (Except.ok data) perm).1 = none ∧
      lookupP (SaveFileFunc fs file (Except.ok data) perm).2.files file =
        some data := by
  have hexf : ¬(pathExists fs file.dropLast = true) := by
    rw [hex]
    simp
  have hdirf : dirExists fs file.dropLast = false := by
    simp only [pathExists, Bool.or_eq_false_iff] at hex
    exact hex.1
  have hdir : ¬(dirExists fs file.dropLast = true) := by
    rw [hdirf]
    simp
  obtain ⟨dirs, files⟩ := fs
  simp only [SaveFileFunc, createTemp, if_neg hdir, ne_eq, not_true_eq_false,
    if_false, ite_false]
  simp only [mkdir, if_neg hexf, if_pos hpar]
  have hd1 :
      dirExists
          ⟨(file.dropLast, perm ||| (perm &&& 0o444) >>> 2) :: dirs, files⟩
          file.dropLast = true := by
    simp [dirExists, lookupP]
  simp only [createTemp, if_pos hd1]
  exact saveFinish_success _ files _ file data
    (freshTmp_fresh
      ⟨(file.dropLast, perm ||| (perm &&& 0o444) >>> 2) :: dirs, files⟩
      file.dropLast (baseStr file))

/-- With two or more missing parent levels the retry cannot help: the
`Mkdir` itself fails with a not-exist error, which is returned with the
filesystem unchanged. -/
theorem saveFileFunc_missing_two (fs : FS) (file : FPath) (f : WriterRes)
    (perm : Nat) (hex : pathExists fs file.dropLast = false)
    (hpar : dirExists fs file.dropLast.dropLast = false) :
    SaveFileFunc fs file f perm = (some OsErr.notExist, fs) := by
  have hexf : ¬(pathExists fs file.dropLast = true) := by
    rw [hex]
    simp
  have hdirf : dirExists fs file.dropLast = false := by
    simp only [pathExists, Bool.or_eq_false_iff] at hex
    exact hex.1
  have hdir : ¬(dirExists fs file.dropLast = true) := by
    rw [hdirf]
    simp
  have hparf : ¬(dirExists fs file.dropLast.dropLast = true) := by
    rw [hpar]
    simp
  simp only [SaveFileFunc, createTemp, if_neg hdir, ne_eq, not_true_eq_false,
    if_false, ite_false]
  simp only [mkdir, if_neg hexf, if_neg hparf]

theorem flatten_replicate_nil {T : Type} (n : Nat) :
    (List.replicate n ([] : List T)).flatten = [] := by
  induction n with
  | zero => rfl
  | succ n ih => simp [List.replicate_succ, ih]

/-! ## The specification's claims -/

/-- Claim C1 (code bug): the claim says `Minus(a, b)` keeps exactly the
elements of `a` that appear nowhere in `b`, so `Minus(a, Merge(a, b))` is
empty — which is also what `Minus`'s own documentation promises.  The
code, however, builds the membership map with `ToMap`, which skips keys
equal to the zero value of the element type, so a zero-valued element of
`b` is never subtracted: `Minus([0], [0]) = [0]` and
`Minus([0], Merge([0], [0])) = [0]`, not `[]`. -/
theorem minus_zero_element_eval :
    Minus (0 : Nat) [0] [0] = [0] ∧
      Merge [[0], ([0] : List Nat)] = [0] ∧
      Minus (0 : Nat) [0] (Merge [[0], [0]]) = [0] :=
  ⟨by decide, by decide, by decide⟩

/-- Claim C2: whenever the writer function fails, `SaveFileFunc` removes
the temporary file and returns the writer's error, leaving the
destination untouched.  With the parent directory present the filesystem
is restored exactly and the writer's error is returned; on every path an
error is returned and the files — in particular the destination, whether
or not it pre-existed — are exactly as before the call. -/
theorem saveFileFunc_writer_error_claim (fs : FS) (file : FPath) (e : OsErr)
    (written : List Nat) (perm : Nat) :
    (dirExists fs file.dropLast = true →
        SaveFileFunc fs file (Except.error (e, written)) perm =
          (some e, fs)) ∧
      ((SaveFileFunc fs file (Except.error (e, written)) perm).1).isSome =
        true ∧
      (SaveFileFunc fs file (Except.error (e, written)) perm).2.files =
        fs.files :=
  ⟨fun h => saveFileFunc_werr_of_dir fs file e written perm h,
    (saveFileFunc_werr_general fs file e written perm).1,
    (saveFileFunc_werr_general fs file e written perm).2⟩

/-- Witness for claim C2, at a concrete filesystem and failing writer. -/
theorem saveFileFunc_writer_error_claim_witness :
    SaveFileFunc ⟨[], []⟩ [Comp.name "a"]
        (Except.error (OsErr.other 7, [1])) 420 =
      (some (OsErr.other 7), ⟨[], []⟩) :=
  (saveFileFunc_writer_error_claim ⟨[], []⟩ [Comp.name "a"] (OsErr.other 7)
    [1] 420).1 (by decide)

/-- Claim C3: if the initial temp-file creation fails because the parent
directory is missing, `SaveFileFunc` creates exactly one directory level
(the immediate parent) with permission bits `perm | ((perm & 0444) >> 2)`
and retries the temp creation once, which then succeeds; a destination
missing two or more parent levels makes the call fail, leaving the
filesystem unchanged. -/
theorem saveFileFunc_one_level_claim (fs : FS) (file : FPath) (f : WriterRes)
    (perm : Nat) (data : List Nat) :
    (pathExists fs file.dropLast = false →
        dirExists fs file.dropLast.dropLast = true →
        (SaveFileFunc fs file f perm).2.dirs =
            (file.dropLast, perm ||| ((perm &&& 0o444) >>> 2)) :: fs.dirs ∧
          (SaveFileFunc fs file (Except.ok data) perm).1 = none ∧
          lookupP (SaveFileFunc fs file (Except.ok data) perm).2.files file =
            some data) ∧
      (pathExists fs file.dropLast = false →
        dirExists fs file.dropLast.dropLast = false →
        SaveFileFunc fs file f perm = (some OsErr.notExist, fs)) :=
  ⟨fun hex hpar =>
    ⟨saveFileFunc_mkdir_dirs fs file f perm hex hpar,
      (saveFileFunc_retry_success fs file perm data hex hpar).1,
      (saveFileFunc_retry_success fs file perm data hex hpar).2⟩,
    fun hex hpar => saveFileFunc_missing_two fs file f perm hex hpar⟩

/-- Witness for claim C3: writing `a/b` with only the root present
creates `a` with mode `0755` from file mode `0644` and succeeds; writing
`a/b/c` fails. -/
theorem saveFileFunc_one_level_claim_witness :
    (SaveFileFunc ⟨[], []⟩ [Comp.name "a", Comp.name "b"] (Except.ok [1, 2])
          0o644).2.dirs =
        [([Comp.name "a"], 0o755)] ∧
      (SaveFileFunc ⟨[], []⟩ [Comp.name "a", Comp.name "b"]
            (Except.ok [1, 2]) 0o644).1 =
        none ∧
      lookupP
          (SaveFileFunc ⟨[], []⟩ [Comp.name "a", Comp.name "b"]
              (Except.ok [1, 2]) 0o644).2.files
          [Comp.name "a", Comp.name "b"] =
        some [1, 2] ∧
      SaveFileFunc ⟨[], []⟩ [Comp.name "a", Comp.name "b", Comp.name "c"]
          (Except.ok [1]) 0o644 =
        (some OsErr.notExist, ⟨[], []⟩) := by
  have h1 := (saveFileFunc_one_level_claim ⟨[], []⟩
    [Comp.name "a", Comp.name "b"] (Except.ok [1, 2]) 0o644 [1, 2]).1
    (by decide) (by decide)
  have h2 := (saveFileFunc_one_level_claim ⟨[], []⟩
    [Comp.name "a", Comp.name "b", Comp.name "c"] (Except.ok [1]) 0o644
    [1]).2 (by decide) (by decide)
  refine ⟨?_, h1.2.1, h1.2.2, h2⟩
  rw [h1.1]
  decide

/-- Claim C4: `SortNatural` sorts by the chunkwise comparison in which a
numeric chunk against a numeric chunk compares by numeric value (the
chunks come stripped of leading zeroes; the shorter digit string is
smaller, equal lengths compare lexicographically), any other pairing of
nonempty chunks compares as plain text, an exhausted first string always
compares below and an exhausted second string never does, and equal
chunks move the comparison to the remainders; in particular the claim's
three-element example sorts as stated. -/
theorem sortNatural_chunk_order_claim :
    (SortNatural ["v1.10.3".data, "v1.5.1".data, "v1.10.1".data] false =
        ["v1.5.1".data, "v1.10.1".data, "v1.10.3".data]) ∧
      ∀ s1 s2 : List Char,
        ((getChunk s1).1 = [] → naturalLess s1 s2 = true) ∧
        ((getChunk s1).1 ≠ [] → (getChunk s2).1 = [] →
          naturalLess s1 s2 = false) ∧
        ((getChunk s1).2.1 = true → (getChunk s2).2.1 = true →
          (getChunk s1).1 ≠ (getChunk s2).1 →
          naturalLess s1 s2 =
            decide (digitsVal (getChunk s1).1 < digitsVal (getChunk s2).1)) ∧
        (¬((getChunk s1).2.1 = true ∧ (getChunk s2).2.1 = true) →
          (getChunk s1).1 ≠ (getChunk s2).1 → (getChunk s1).1 ≠ [] →
          (getChunk s2).1 ≠ [] →
          naturalLess s1 s2 = lexLt (getChunk s1).1 (getChunk s2).1) ∧
        ((getChunk s1).1 = (getChunk s2).1 → (getChunk s1).1 ≠ [] →
          naturalLess s1 s2 =
            naturalLess (getChunk s1).2.2 (getChunk s2).2.2) := by
  refine ⟨by decide, fun s1 s2 => ⟨?_, ?_, ?_, ?_, ?_⟩⟩
  · intro h
    rw [naturalLess_step, if_pos h]
  · intro h1 h2
    rw [naturalLess_step, if_neg h1, if_pos h2]
  · intro hn1 hn2 hne
    have wf1 := getChunk_num_wf hn1
    have wf2 := getChunk_num_wf hn2
    rw [naturalLess_step, if_neg wf1.2.1, if_neg wf2.2.1, if_pos hne, hn1,
      hn2, if_pos (show (true && true : Bool) = true from rfl)]
    exact num_cmp_eq_digitsVal wf1 wf2
  · intro hnn hne h1 h2
    have hb : ¬(((getChunk s1).2.1 && (getChunk s2).2.1) = true) := by
      simp only [Bool.and_eq_true]
      exact hnn
    rw [naturalLess_step, if_neg h1, if_neg h2, if_pos hne, if_neg hb]
  · intro heq h1
    have h2 : (getChunk s2).1 ≠ [] := heq ▸ h1
    rw [naturalLess_step, if_neg h1, if_neg h2, if_neg (by simp [heq])]

/-- Witness for claim C4: the numeric-chunk rule applied to `"2" < "10"`. -/
theorem sortNatural_chunk_order_claim_witness :
    naturalLess "2".data "10".data = true := by
  have h := ((sortNatural_chunk_order_claim.2 "2".data "10".data).2.2.1)
    (by decide) (by decide) (by decide)
  rw [h]
  decide

/-- Claim C5 (counterexample): the chunks extracted by `getChunk` do not
always concatenate back to the original string: for `"007"` the only
chunk is `"7"`, the leading zeroes having been stripped. -/
theorem chunk_concat_counterexample :
    ¬((chunkList "007".data).flatten = "007".data) := by decide

/-- Claim C5 (amended): what reconstructs the original string is the
concatenation of the raw segments consumed at each `getChunk` step (the
part of the current string before the returned remainder); the returned
chunks themselves may differ, numeric chunks being stripped of leading
zeroes and text chunks trimmed of whitespace. -/
theorem chunk_consumed_concat (s : List Char) : (chunkSplits s).flatten = s :=
  chunkSplitsAux_flatten s.length s (le_refl _)

/-- Witness for the amended claim C5 at a concrete string. -/
theorem chunk_consumed_concat_witness :
    (chunkSplits "a 01b".data).flatten = "a 01b".data :=
  chunk_consumed_concat "a 01b".data

/-- Claim C6 (counterexample): when the first temp creation reports
not-exist and the directory creation then fails with already-exists (the
directory appeared concurrently in between), `SaveFileFunc` does return
the already-exists error to the caller — the claim says it does not. -/
theorem saveFlow_exist_counterexample :
    SaveFileFuncFlow (some OsErr.notExist) (some OsErr.exist) none none none
        none =
      some OsErr.exist := by decide

/-- Claim C6 (amended): every error of the directory-creation attempt,
already-exists included, is returned to the caller as-is; the code has no
special case for already-exists. -/
theorem saveFlow_mkdir_error_surfaced (e2 : OsErr)
    (r3 fw rc rr : Option OsErr) :
    SaveFileFuncFlow (some OsErr.notExist) (some e2) r3 fw rc rr = some e2 :=
  rfl

/-- Witness for the amended claim C6 at concrete call outcomes. -/
theorem saveFlow_mkdir_error_surfaced_witness :
    SaveFileFuncFlow (some OsErr.notExist) (some (OsErr.other 3)) none none
        none (some OsErr.notExist) =
      some (OsErr.other 3) :=
  saveFlow_mkdir_error_surfaced (OsErr.other 3) none none none
    (some OsErr.notExist)

/-- Claim C7: `Unique` maps `nil` to `nil` and every non-nil slice to a
non-nil slice; its result is a duplicate-free subsequence of the input
ordered by first-occurrence position and containing exactly the input's
values (first-seen-order deduplication); and it is idempotent on non-nil
slices. -/
theorem unique_first_seen_claim {T : Type} [DecidableEq T] :
    Unique (none : Option (List T)) = none ∧
      (∀ l : List T, (Unique (some l)).isSome = true) ∧
      (∀ l : List T,
        List.Sublist (uniqueGo GoMap.empty l) l ∧
          (uniqueGo GoMap.empty l).Nodup ∧
          (uniqueGo GoMap.empty l).Pairwise
            (fun a b => l.indexOf a < l.indexOf b) ∧
          ∀ a : T, a ∈ uniqueGo GoMap.empty l ↔ a ∈ l) ∧
      ∀ l : List T, Unique (Unique (some l)) = Unique (some l) := by
  refine ⟨rfl, fun l => rfl,
    fun l => ⟨uniqueGo_sublist _ l, uniqueGo_nodup _ l,
      pairwise_indexOf_uniqueGo _ l, fun a => ?_⟩,
    fun l => ?_⟩
  · rw [mem_uniqueGo]
    simp [GoMap.empty]
  · show some (uniqueGo GoMap.empty (uniqueGo GoMap.empty l)) =
      some (uniqueGo GoMap.empty l)
    congr 1
    exact uniqueGo_eq_self _ _ (uniqueGo_nodup _ l) fun a _ => rfl

/-- Witness for claim C7 on a concrete slice. -/
theorem unique_first_seen_claim_witness :
    Unique (none : Option (List Nat)) = none ∧
      Unique (Unique (some [1, 2, 1, 3])) =
        Unique (some ([1, 2, 1, 3] : List Nat)) :=
  ⟨(unique_first_seen_claim (T := Nat)).1,
    (unique_first_seen_claim (T := Nat)).2.2.2 [1, 2, 1, 3]⟩

/-- Claim C9: `naturalLess` relates every string to itself — when both
sides exhaust their chunks together the comparator answers true, so the
comparison `SortNatural` uses is not irreflexive. -/
theorem naturalLess_self_claim (s : List Char) : naturalLess s s = true :=
  naturalLess_self_aux s.length s rfl

/-- Witness for claim C9 at a concrete string. -/
theorem naturalLess_self_claim_witness :
    naturalLess "v1.10".data "v1.10".data = true :=
  naturalLess_self_claim "v1.10".data

/-- Claim C10: `Minus` with a `nil` minuend and `Merge` of no slices or of
only `nil` slices return the empty but non-nil slice; `Minus` and `Merge`
never return `nil` at all, unlike `Unique`, which sends `nil` to `nil`. -/
theorem minus_merge_non_nil_claim {T : Type} [DecidableEq T] (zero : T) :
    (∀ b : Option (List T), MinusG zero none b = some []) ∧
      MergeG ([] : List (Option (List T))) = some [] ∧
      (∀ n : Nat,
        MergeG (List.replicate n (none : Option (List T))) = some []) ∧
      (∀ a b : Option (List T), (MinusG zero a b).isSome = true) ∧
      (∀ ss : List (Option (List T)), (MergeG ss).isSome = true) ∧
      Unique (none : Option (List T)) = none := by
  refine ⟨fun b => rfl, rfl, fun n => ?_, fun a b => rfl, fun ss => rfl, rfl⟩
  show some
      (Merge ((List.replicate n (none : Option (List T))).map fun s =>
        s.getD [])) =
    some []
  rw [List.map_replicate]
  show some (uniqueGo GoMap.empty
      (List.replicate n ([] : List T)).flatten) = some []
  rw [flatten_replicate_nil]
  rfl

/-- Witness for claim C10 on concrete slices. -/
theorem minus_merge_non_nil_claim_witness :
    MinusG (0 : Nat) none (some [1, 2]) = some [] ∧
      MergeG (List.replicate 2 (none : Option (List Nat))) = some [] :=
  ⟨(minus_merge_non_nil_claim (0 : Nat)).1 (some [1, 2]),
    (minus_merge_non_nil_claim (0 : Nat)).2.2.1 2⟩

end Tools
